import Mathlib

/-!
# tinynurbs `util.h`: numeric helpers

A shallow embedding of `src/tinynurbs/util/util.h` and theorems about it.

* `unsigned int` is a natural number below `UINT_MOD = 2 ^ 32`; every arithmetic
  operation of the source on that type is followed by an explicit reduction
  modulo `UINT_MOD`.
* The `for` loop of `binomial` is a fuelled recursion over the loop state
  `(i, result)`; the outcome records the number of loop-body executions, so that
  statements about the loop (not only about the returned value) can be made.
  Division by zero, which is undefined behaviour in C++, is a separate outcome.
  `binomialState` gives the loop state after a number of iterations.
* The templates over a scalar type `T` are functions over the operations of `T`
  that they use. Theorems read them either with exact arithmetic (a field) or
  with `Dbl`, the IEEE-754 binary64 arithmetic of `double`.
-/

namespace tinynurbs
namespace util

/-! ## Machine arithmetic of `unsigned int` -/

/-- Number of values of the 32-bit `unsigned int` type. -/
def UINT_MOD : Nat := 2 ^ 32

/-- Wrapping `a + b` on `unsigned int`. -/
def uadd (a b : Nat) : Nat := (a + b) % UINT_MOD

/-- Wrapping `a - b` on `unsigned int`. -/
def usub (a b : Nat) : Nat := (a + (UINT_MOD - b % UINT_MOD)) % UINT_MOD

/-- Wrapping `a * b` on `unsigned int`. -/
def umul (a b : Nat) : Nat := (a * b) % UINT_MOD

/-! ## `binomial` -/

/-- How a call of `binomial` ends. `iters` is the number of times the loop body
was entered before the call ended. -/
inductive Outcome where
  /-- The `return` statement was reached with this value. -/
  | ret (value : Nat) (iters : Nat)
  /-- The statement `result /= i` was executed with `i = 0`. -/
  | divByZero (iters : Nat)
  /-- The fuel of the model ran out (no counterpart in the source). -/
  | outOfFuel
  deriving DecidableEq, Repr

/-- The loop `for (unsigned int i = 1; i <= k; ++i) { result *= (n + 1 - i); result /= i; }`
followed by `return result;`, started in the state `(i, result)` after `iters`
executions of the body. -/
def binomialLoop (n k : Nat) : Nat → Nat → Nat → Nat → Outcome
  | 0, _, _, _ => Outcome.outOfFuel
  | fuel + 1, i, result, iters =>
    if i ≤ k then
      let result1 := umul result (usub (uadd n 1) i)
      if i = 0 then Outcome.divByZero (iters + 1)
      else binomialLoop n k fuel (uadd i 1) (result1 / i) (iters + 1)
    else Outcome.ret result iters

/-- Fuel given to the loop: more than the number of values the counter can take. -/
def binomialFuel : Nat := UINT_MOD + 1

/-- The function `binomial(unsigned int n, unsigned int k)`. -/
def binomial (n k : Nat) : Outcome :=
  if k > n then Outcome.ret 0 0
  else binomialLoop n k binomialFuel 1 1 0

/-- The state `(i, result)` of the loop of `binomial` at the loop head after `t`
executions of the body, started from `i = 1`, `result = 1`. It is `none` when
the loop was left before `t` executions, or when one of them divided by zero. -/
def binomialState (n k : Nat) : Nat → Option (Nat × Nat)
  | 0 => some (1, 1)
  | t + 1 =>
    match binomialState n k t with
    | none => none
    | some (i, result) =>
      if i ≤ k then
        let result1 := umul result (usub (uadd n 1) i)
        if i = 0 then none else some (uadd i 1, result1 / i)
      else none

/-! ## Small vectors (`glm::vec<n, T>`)

The vector type comes from the GLM library, which the header only consumes.
Its operations used by the header are embedded with GLM's meaning: component
access, `length()`, componentwise arithmetic with a scalar, the converting
constructor to the next lower dimension (which keeps the leading components) and
the constructor from a vector and one more scalar. -/

/-- The type `glm::vec<n, T>`: `n` components of type `T`, indexed `0 .. n - 1`. -/
def Vec (n : Nat) (T : Type) : Type := Fin n → T

namespace Vec

variable {T : Type} {n : Nat}

/-- The member `pt.length()`. -/
def length (_pt : Vec n T) : Nat := n

/-- The operator `pt[i]` at an index inside the vector. -/
def get (pt : Vec n T) (i : Nat) (h : i < n) : T := pt ⟨i, h⟩

/-- The operator `pt / s` of a vector and a scalar. -/
def divScalar [Div T] (pt : Vec n T) (s : T) : Vec n T := fun i => pt i / s

/-- The operator `pt * s` of a vector and a scalar. -/
def mulScalar [Mul T] (pt : Vec n T) (s : T) : Vec n T := fun i => pt i * s

/-- The constructor `glm::vec<n - 1, T>(pt)` from a vector of dimension `n`. -/
def truncate (pt : Vec n T) : Vec (n - 1) T :=
  fun i => pt ⟨i.val, Nat.lt_of_lt_of_le i.isLt (Nat.sub_le n 1)⟩

/-- The constructor `glm::vec<n + 1, T>(pt, s)` from a vector and a scalar. -/
def snoc (pt : Vec n T) (s : T) : Vec (n + 1) T :=
  fun i => if h : i.val < n then pt ⟨i.val, h⟩ else s

end Vec

/-! ## Coordinate conversions -/

section Conversions

variable {T : Type} {nd : Nat}

/-- The function `homogenousToCartesian<nd, T>`:
`glm::vec<nd - 1, T>(pt / pt[pt.length() - 1])`. The index `pt.length() - 1`
lies inside the vector because `nd` is positive. -/
def homogenousToCartesian [Div T] (hnd : 0 < nd) (pt : Vec nd T) : Vec (nd - 1) T :=
  Vec.truncate (Vec.divScalar pt (Vec.get pt (Vec.length pt - 1) (Nat.sub_lt hnd Nat.one_pos)))

/-- The function `cartesianToHomogenous<nd, T>`: `glm::vec<nd + 1, T>(pt * w, w)`. -/
def cartesianToHomogenous [Mul T] (pt : Vec nd T) (w : T) : Vec (nd + 1) T :=
  Vec.snoc (Vec.mulScalar pt w) w

/-- The function `truncateHomogenous<nd, T>`: `glm::vec<nd - 1, T>(pt)`. -/
def truncateHomogenous (pt : Vec nd T) : Vec (nd - 1) T :=
  Vec.truncate pt

end Conversions

/-! ## `close` and `mapToRange`

Both functions are templates over the scalar type `T`. They are embedded over
the operations of `T` that they use, so that they can be read with exact
arithmetic (an ordered field) and with the arithmetic of `double` (`Dbl` below).
The default value of the parameter `eps` is not modelled: `eps` is always
passed. -/

/-- The function `std::abs` of the scalar type `T`. -/
class StdAbs (T : Type) where
  /-- The absolute value of a scalar. -/
  abs : T → T

/-- On an ordered field `std::abs` is the absolute value. -/
instance instStdAbsField {T : Type} [LinearOrderedField T] : StdAbs T := ⟨fun x => |x|⟩

/-- The function `close<T>`: `(std::abs(a - b) < eps) ? true : false`. -/
def close {T : Type} [Sub T] [StdAbs T] [LT T] [∀ x y : T, Decidable (x < y)]
    (a b eps : T) : Bool :=
  if StdAbs.abs (a - b) < eps then true else false

/-- The function `mapToRange<T>`. -/
def mapToRange {T : Type} [Sub T] [Mul T] [Div T] [Add T]
    (val old_min old_max new_min new_max : T) : T :=
  let old_range := old_max - old_min
  let new_range := new_max - new_min
  (((val - old_min) * new_range) / old_range) + new_min

/-! ## The scalar type `double`

The header leaves the arithmetic of its scalar type to the C++ implementation;
the specification fixes it as IEEE-754. `Dbl` is binary64 with the default
rounding (to nearest, ties to even), signed zeros, infinities and NaN, and
without traps: every operation returns a value. -/

/-- Modelled from the spec: the scalar type `double` as IEEE-754 binary64.
`finite sign m e` is the number `(-1) ^ sign * m * 2 ^ e`; several triples may
stand for the same number, and `finite sign 0 e` is the zero with that sign. -/
inductive Dbl where
  /-- A finite number, zero included. -/
  | finite (sign : Bool) (m : Nat) (e : Int)
  /-- Plus (`sign = false`) or minus (`sign = true`) infinity. -/
  | inf (sign : Bool)
  /-- Not a number. -/
  | nan
  deriving DecidableEq, Repr

namespace Dbl

/-- Number of bits of the significand of binary64. -/
def PREC : Nat := 53

/-- Exponent of the least positive binary64 number `2 ^ (-1074)`. -/
def EMIN : Int := -1074

/-- Every finite binary64 number is below `2 ^ 1024` in absolute value. -/
def EMAX : Int := 1024

/-- Number of binary digits of `m`, by at most `fuel` halvings. -/
def bitLengthAux : Nat → Nat → Nat
  | 0, _ => 0
  | fuel + 1, m => if m = 0 then 0 else bitLengthAux fuel (m / 2) + 1

/-- Number of binary digits of `m` (`0` for `m = 0`). -/
def bitLength (m : Nat) : Nat := bitLengthAux m m

/-- Modelled from the spec: IEEE-754 rounding of the exact value
`(-1) ^ sign * m * 2 ^ e` to binary64, to nearest with ties to even. The low
`sh` bits of `m` are dropped so that at most `PREC` bits stay and the exponent
is at least `EMIN`; a result of `2 ^ EMAX` or more becomes an infinity, and
zero stays zero. -/
def roundNE (sign : Bool) (m : Nat) (e : Int) : Dbl :=
  let sh : Int := max ((bitLength m : Int) - (PREC : Int)) (EMIN - e)
  if m = 0 then finite sign 0 0
  else if sh ≤ 0 then
    if (bitLength m : Int) + e > EMAX then inf sign else finite sign m e
  else
    let s := sh.toNat
    let q := m / 2 ^ s
    let r := m % 2 ^ s
    let half := 2 ^ (s - 1)
    let q1 := if r > half ∨ (r = half ∧ q % 2 = 1) then q + 1 else q
    if (bitLength q1 : Int) + (e + sh) > EMAX then inf sign else finite sign q1 (e + sh)

/-- The integer `(-1) ^ sign * m`. -/
def signed (sign : Bool) (m : Nat) : Int := if sign then -(m : Int) else (m : Int)

/-- Modelled from the spec: IEEE-754 negation (the sign is flipped). -/
def neg : Dbl → Dbl
  | finite s m e => finite (!s) m e
  | inf s => inf (!s)
  | nan => nan

/-- Modelled from the spec: IEEE-754 addition. The exact sum of two finite
numbers is formed over the common exponent `min e f` and rounded; an exact zero
sum is `+0` unless both operands are negative. -/
def add : Dbl → Dbl → Dbl
  | nan, _ => nan
  | _, nan => nan
  | inf s, inf t => if s = t then inf s else nan
  | inf s, finite _ _ _ => inf s
  | finite _ _ _, inf t => inf t
  | finite s m e, finite t n f =>
    let e0 := min e f
    let sum := signed s (m * 2 ^ (e - e0).toNat) + signed t (n * 2 ^ (f - e0).toNat)
    if sum = 0 then finite (s && t) 0 e0
    else roundNE (decide (sum < 0)) sum.natAbs e0

/-- Modelled from the spec: IEEE-754 subtraction, `x - y = x + (-y)`. -/
def sub (x y : Dbl) : Dbl := add x (neg y)

/-- Modelled from the spec: IEEE-754 multiplication; infinity times zero is NaN. -/
def mul : Dbl → Dbl → Dbl
  | nan, _ => nan
  | _, nan => nan
  | inf s, inf t => inf (xor s t)
  | inf s, finite t n _ => if n = 0 then nan else inf (xor s t)
  | finite s m _, inf t => if m = 0 then nan else inf (xor s t)
  | finite s m e, finite t n f => roundNE (xor s t) (m * n) (e + f)

/-- Modelled from the spec: IEEE-754 division. A non-zero finite number or an
infinity divided by zero is an infinity, zero by zero and infinity by infinity
are NaN. The quotient of two finite numbers is computed to more than
`PREC + 2` bits, with one more bit that records a non-zero remainder, and
rounded. -/
def div : Dbl → Dbl → Dbl
  | nan, _ => nan
  | _, nan => nan
  | inf _, inf _ => nan
  | inf s, finite t _ _ => inf (xor s t)
  | finite s _ _, inf t => finite (xor s t) 0 0
  | finite s m e, finite t n f =>
    if n = 0 then (if m = 0 then nan else inf (xor s t))
    else
      let k := bitLength n + 64
      let num := m * 2 ^ k
      let q := num / n
      let sticky := if num % n = 0 then 0 else 1
      roundNE (xor s t) (2 * q + sticky) (e - f - (k : Int) - 1)

/-- Modelled from the spec: `std::abs` on `double` (the sign is cleared). -/
def abs : Dbl → Dbl
  | finite _ m e => finite false m e
  | inf _ => inf false
  | nan => nan

/-- Modelled from the spec: the IEEE-754 comparison `x < y`; it is false when an
operand is NaN, and the two zeros compare equal. -/
def lt : Dbl → Dbl → Bool
  | nan, _ => false
  | _, nan => false
  | inf s, inf t => s && !t
  | inf s, finite _ _ _ => s
  | finite _ _ _, inf t => !t
  | finite s m e, finite t n f =>
    let e0 := min e f
    decide (signed s (m * 2 ^ (e - e0).toNat) < signed t (n * 2 ^ (f - e0).toNat))

/-- The value is `+0` or `-0`. -/
def isZero : Dbl → Bool
  | finite _ m _ => decide (m = 0)
  | _ => false

/-- The value is an infinity or a NaN. -/
def isInfOrNaN : Dbl → Bool
  | finite _ _ _ => false
  | _ => true

/-- The value is a finite number of binary64, or an infinity or NaN: a finite
value has a significand of at most `PREC` bits, an exponent of at least `EMIN`
and a magnitude below `2 ^ EMAX`. -/
def isBinary64 : Dbl → Bool
  | finite _ m e => decide (m < 2 ^ 53 ∧ EMIN ≤ e ∧ (bitLength m : Int) + e ≤ EMAX)
  | _ => true

/-- The rational number that a finite value stands for (`0` for the others). -/
def toRat : Dbl → ℚ
  | finite s m e => (signed s m : ℚ) * (2 : ℚ) ^ e
  | _ => 0

/-- The magnitudes `m * 2 ^ e` and `m' * 2 ^ e'` are the same number. -/
def SameMag (m : Nat) (e : Int) (m' : Nat) (e' : Int) : Prop :=
  (∃ d : Nat, e' = e + d ∧ m = m' * 2 ^ d) ∨ (∃ d : Nat, e = e' + d ∧ m' = m * 2 ^ d)

instance instAdd : Add Dbl := ⟨add⟩

instance instSub : Sub Dbl := ⟨sub⟩

instance instMul : Mul Dbl := ⟨mul⟩

instance instDiv : Div Dbl := ⟨div⟩

instance instLT : LT Dbl := ⟨fun x y => lt x y = true⟩

instance instDecidableLT (x y : Dbl) : Decidable (x < y) :=
  inferInstanceAs (Decidable (lt x y = true))

instance instStdAbs : StdAbs Dbl := ⟨abs⟩

end Dbl

/-! ## Lemmas on the machine arithmetic -/

theorem uadd_of_lt {a b : Nat} (h : a + b < UINT_MOD) : uadd a b = a + b := by
  unfold uadd
  exact Nat.mod_eq_of_lt h

theorem umul_of_lt {a b : Nat} (h : a * b < UINT_MOD) : umul a b = a * b := by
  unfold umul
  exact Nat.mod_eq_of_lt h

/-- The subexpression `n + 1 - i` of the loop body is `n + 1 - i` over the
naturals for `1 ≤ i ≤ n + 1`, also when `n + 1` wraps to `0`. -/
theorem usub_uadd_one {n i : Nat} (hn : n < UINT_MOD) (hi : 1 ≤ i) (hin : i ≤ n + 1) :
    usub (uadd n 1) i = n + 1 - i := by
  unfold usub uadd UINT_MOD at *
  omega

/-- One execution of the loop body, when the counter is in `1 .. k`. -/
theorem binomialLoop_step (n k fuel i result iters : Nat) (hik : i ≤ k) (hi : i ≠ 0) :
    binomialLoop n k (fuel + 1) i result iters
      = binomialLoop n k fuel (uadd i 1) (umul result (usub (uadd n 1) i) / i) (iters + 1) := by
  simp [binomialLoop, hik, hi]

/-- Leaving the loop, when the counter is above `k`. -/
theorem binomialLoop_exit (n k fuel i result iters : Nat) (hik : k < i) :
    binomialLoop n k (fuel + 1) i result iters = Outcome.ret result iters := by
  simp [binomialLoop, Nat.not_le.mpr hik]

/-- The product formed in step `j + 1`, divided by `j + 1`, is the next coefficient. -/
theorem choose_step (n j : Nat) : Nat.choose n j * (n - j) / (j + 1) = Nat.choose n (j + 1) := by
  rw [← Nat.choose_succ_right_eq]
  exact Nat.mul_div_cancel _ (Nat.succ_pos j)

/-- Loop invariant: started at counter `j + 1` with accumulator `C(n, j)`, and
with no product up to step `k` leaving the 32-bit range, the loop returns
`C(n, k)` after `k` executions of the body in total. -/
theorem binomialLoop_choose (n k : Nat) (hn : n < UINT_MOD) (hkn : k ≤ n) (hk : k + 1 < UINT_MOD)
    (hprod : ∀ j, j < k → Nat.choose n j * (n - j) < UINT_MOD) :
    ∀ (d j fuel : Nat), j + d = k → d < fuel →
      binomialLoop n k fuel (j + 1) (Nat.choose n j) j = Outcome.ret (Nat.choose n k) k := by
  intro d
  induction d with
  | zero =>
    intro j fuel hj hfuel
    obtain ⟨f, rfl⟩ : ∃ f, fuel = f + 1 := ⟨fuel - 1, by omega⟩
    have hjk : j = k := by omega
    subst hjk
    exact binomialLoop_exit n j f (j + 1) _ _ (Nat.lt_succ_self j)
  | succ d ih =>
    intro j fuel hj hfuel
    obtain ⟨f, rfl⟩ : ∃ f, fuel = f + 1 := ⟨fuel - 1, by omega⟩
    have hjk : j < k := by omega
    rw [binomialLoop_step n k f (j + 1) _ _ hjk (Nat.succ_ne_zero j)]
    rw [usub_uadd_one hn (Nat.succ_pos j) (by omega)]
    rw [show n + 1 - (j + 1) = n - j by omega]
    rw [umul_of_lt (hprod j hjk), choose_step]
    rw [uadd_of_lt (show j + 1 + 1 < UINT_MOD by omega)]
    exact ih (j + 1) f (by omega) (by omega)

/-- The hypothesis that no product overflows excludes `k = 2 ^ 32 - 1`. -/
theorem counter_bound_of_no_overflow (n k : Nat) (hn : n < UINT_MOD) (hkn : k ≤ n)
    (hprod : ∀ i, 1 ≤ i → i ≤ k → Nat.choose n (i - 1) * (n + 1 - i) < UINT_MOD) :
    k + 1 < UINT_MOD := by
  by_contra hcon
  have hk : k = UINT_MOD - 1 := by omega
  have hn2 : n = UINT_MOD - 1 := by omega
  have h2 := hprod 2 (by decide) (by rw [hk]; decide)
  rw [hn2] at h2
  simp only [Nat.choose_one_right, show 2 - 1 = 1 by rfl] at h2
  revert h2
  decide

/-- The fuel is never the reason a run of the loop ends: from a 32-bit counter
the loop either leaves through `return` or reaches the division with a counter
that wrapped to `0`. -/
theorem binomialLoop_ne_outOfFuel (n k : Nat) :
    ∀ (d fuel i result iters : Nat), i < UINT_MOD → (i = 0 ∨ UINT_MOD ≤ i + d) → d < fuel →
      binomialLoop n k fuel i result iters ≠ Outcome.outOfFuel := by
  intro d
  induction d with
  | zero =>
    intro fuel i result iters hi hd hfuel
    obtain ⟨f, rfl⟩ : ∃ f, fuel = f + 1 := ⟨fuel - 1, by omega⟩
    have h0 : i = 0 := by omega
    subst h0
    simp [binomialLoop]
  | succ d ih =>
    intro fuel i result iters hi hd hfuel
    obtain ⟨f, rfl⟩ : ∃ f, fuel = f + 1 := ⟨fuel - 1, by omega⟩
    by_cases hik : i ≤ k
    · by_cases h0 : i = 0
      · subst h0
        simp [binomialLoop]
      · rw [binomialLoop_step n k f i result iters hik h0]
        apply ih f (uadd i 1) _ _ (Nat.mod_lt _ (by decide)) _ (by omega)
        by_cases hwrap : i + 1 < UINT_MOD
        · right
          rw [uadd_of_lt hwrap]
          omega
        · left
          have hval : i + 1 = UINT_MOD := by omega
          unfold uadd
          rw [hval]
          exact Nat.mod_self UINT_MOD
    · simp [binomialLoop, hik]

/-- The model of `binomial` never runs out of fuel. -/
theorem binomial_ne_outOfFuel (n k : Nat) : binomial n k ≠ Outcome.outOfFuel := by
  unfold binomial
  split
  · simp
  · exact binomialLoop_ne_outOfFuel n k (UINT_MOD - 1) binomialFuel 1 1 0 (by decide)
      (Or.inr (by decide)) (by decide)

/-- The two ways of writing the product of step `i` agree:
`C(n, i - 1) * (n + 1 - i) = i * C(n, i)` for `i ≥ 1`. -/
theorem choose_pred_mul (n i : Nat) (hi : 1 ≤ i) :
    Nat.choose n (i - 1) * (n + 1 - i) = i * Nat.choose n i := by
  obtain ⟨j, rfl⟩ : ∃ j, i = j + 1 := ⟨i - 1, by omega⟩
  rw [Nat.add_sub_cancel, show n + 1 - (j + 1) = n - j by omega, ← Nat.choose_succ_right_eq,
    Nat.mul_comm]

/-- The whole function on inputs `k ≤ n < 2 ^ 32` for which no product of the
loop leaves the 32-bit range. -/
theorem binomial_of_products_lt (n k : Nat) (hn : n < UINT_MOD) (hkn : k ≤ n)
    (hprod : ∀ i, 1 ≤ i → i ≤ k → Nat.choose n (i - 1) * (n + 1 - i) < UINT_MOD) :
    binomial n k = Outcome.ret (Nat.choose n k) k := by
  have hk := counter_bound_of_no_overflow n k hn hkn hprod
  have hprod2 : ∀ j, j < k → Nat.choose n j * (n - j) < UINT_MOD := by
    intro j hj
    have h := hprod (j + 1) (Nat.succ_pos j) hj
    rwa [Nat.add_sub_cancel, show n + 1 - (j + 1) = n - j by omega] at h
  unfold binomial
  rw [if_neg (Nat.not_lt.mpr hkn)]
  have h := binomialLoop_choose n k hn hkn hk hprod2 k 0 binomialFuel (by omega)
    (by unfold binomialFuel; omega)
  simpa using h

/-- With `k = 2 ^ 32 - 1` the loop condition `i <= k` holds for every counter
value, so the counter runs through `i, i + 1, ..., 2 ^ 32 - 1`, wraps to `0`,
and the body entered with `i = 0` divides by zero. Here `d` is the number of
bodies completed before that one. -/
theorem binomialLoop_wraps (n : Nat) :
    ∀ (d fuel i result iters : Nat),
      ((i = 0 ∧ d = 0) ∨ (1 ≤ i ∧ 1 ≤ d ∧ i + d = UINT_MOD)) → d < fuel →
      binomialLoop n (UINT_MOD - 1) fuel i result iters = Outcome.divByZero (iters + d + 1) := by
  intro d
  induction d with
  | zero =>
    intro fuel i result iters hcase hfuel
    obtain ⟨f, rfl⟩ : ∃ f, fuel = f + 1 := ⟨fuel - 1, by omega⟩
    have h0 : i = 0 := by omega
    subst h0
    simp [binomialLoop]
  | succ d ih =>
    intro fuel i result iters hcase hfuel
    obtain ⟨f, rfl⟩ : ∃ f, fuel = f + 1 := ⟨fuel - 1, by omega⟩
    have hi1 : 1 ≤ i := by omega
    have hsum : i + (d + 1) = UINT_MOD := by omega
    rw [binomialLoop_step n (UINT_MOD - 1) f i result iters (by omega) (by omega)]
    rw [ih f (uadd i 1) _ (iters + 1) _ (by omega)]
    · congr 1
      omega
    · rcases Nat.eq_zero_or_pos d with hd | hd
      · left
        refine ⟨?_, hd⟩
        unfold uadd
        rw [show i + 1 = UINT_MOD by omega]
        exact Nat.mod_self UINT_MOD
      · right
        rw [uadd_of_lt (by omega)]
        omega

/-- When `k + 1` does not wrap, the loop started at counter `j + 1 ≤ k + 1`
after `j` executions of the body returns after `k` executions in total: the
counter stops at `k + 1` and no division by zero is met. -/
theorem binomialLoop_returns (n k : Nat) (hk : k + 1 < UINT_MOD) :
    ∀ (d j fuel result : Nat), j + d = k → d < fuel →
      ∃ v, binomialLoop n k fuel (j + 1) result j = Outcome.ret v k := by
  intro d
  induction d with
  | zero =>
    intro j fuel result hj hfuel
    obtain ⟨f, rfl⟩ : ∃ f, fuel = f + 1 := ⟨fuel - 1, by omega⟩
    have hjk : j = k := by omega
    subst hjk
    exact ⟨result, binomialLoop_exit n j f (j + 1) _ _ (Nat.lt_succ_self j)⟩
  | succ d ih =>
    intro j fuel result hj hfuel
    obtain ⟨f, rfl⟩ : ∃ f, fuel = f + 1 := ⟨fuel - 1, by omega⟩
    rw [binomialLoop_step n k f (j + 1) _ _ (by omega) (Nat.succ_ne_zero j)]
    rw [uadd_of_lt (show j + 1 + 1 < UINT_MOD by omega)]
    exact ih (j + 1) f _ (by omega) (by omega)

/-- The function returns, after at most `k` executions of the loop body, on every
input other than `k = 2 ^ 32 - 1 ≤ n`. -/
theorem binomial_returns (n k : Nat) (hk : k < UINT_MOD) (hne : k + 1 < UINT_MOD ∨ n < k) :
    ∃ v iters, iters ≤ k ∧ binomial n k = Outcome.ret v iters := by
  unfold binomial
  by_cases hkn : k > n
  · rw [if_pos hkn]
    exact ⟨0, 0, Nat.zero_le k, rfl⟩
  · rw [if_neg hkn]
    have hk1 : k + 1 < UINT_MOD := by omega
    obtain ⟨v, hv⟩ := binomialLoop_returns n k hk1 k 0 binomialFuel 1 (by omega)
      (by unfold binomialFuel; omega)
    exact ⟨v, k, le_refl k, hv⟩

/-- Running `i ≤ k` iterations from the initial state `(i, result) = (1, 1)`
leads, when no product of the loop leaves the 32-bit range, to the state with
counter `i + 1` and accumulator `C(n, i)`. -/
theorem binomialLoop_prefix (n k : Nat) (hn : n < UINT_MOD) (hkn : k ≤ n)
    (hk : k + 1 < UINT_MOD) (hprod : ∀ j, j < k → Nat.choose n j * (n - j) < UINT_MOD) :
    ∀ (i fuel : Nat), i ≤ k →
      binomialLoop n k (fuel + i) 1 1 0 = binomialLoop n k fuel (i + 1) (Nat.choose n i) i := by
  intro i
  induction i with
  | zero =>
    intro fuel _
    rw [Nat.choose_zero_right, Nat.add_zero]
  | succ i ih =>
    intro fuel hi
    have hik : i < k := hi
    rw [show fuel + (i + 1) = (fuel + 1) + i by omega, ih (fuel + 1) (by omega)]
    rw [binomialLoop_step n k fuel (i + 1) _ _ hi (Nat.succ_ne_zero i)]
    rw [usub_uadd_one hn (Nat.succ_pos i) (by omega)]
    rw [show n + 1 - (i + 1) = n - i by omega]
    rw [umul_of_lt (hprod i hik), choose_step]
    rw [uadd_of_lt (show i + 1 + 1 < UINT_MOD by omega)]

/-- The loop states and the loop agree: when `(i, result)` is the state after `t`
executions of the body, the run of the loop from the initial state goes on from
`(i, result)` with `t` executions counted. -/
theorem binomialLoop_of_state (n k : Nat) :
    ∀ (t i result : Nat), binomialState n k t = some (i, result) →
      ∀ fuel, binomialLoop n k (fuel + t) 1 1 0 = binomialLoop n k fuel i result t := by
  intro t
  induction t with
  | zero =>
    intro i result h fuel
    simp only [binomialState, Option.some.injEq, Prod.mk.injEq] at h
    rw [← h.1, ← h.2, Nat.add_zero]
  | succ t ih =>
    intro i result h fuel
    rw [binomialState] at h
    cases hst : binomialState n k t with
    | none => rw [hst] at h; exact absurd h (by simp)
    | some st =>
      obtain ⟨j, r⟩ := st
      rw [hst] at h
      by_cases hjk : j ≤ k
      · by_cases hj0 : j = 0
        · simp [hjk, hj0] at h
        · simp only [hjk, hj0, if_true, if_false, Option.some.injEq, Prod.mk.injEq] at h
          rw [show fuel + (t + 1) = (fuel + 1) + t by omega, ih j r hst (fuel + 1)]
          rw [binomialLoop_step n k fuel j r t hjk hj0, h.1, h.2]
      · simp [hjk] at h

/-- Loop invariant on the loop states: with no product up to step `k` leaving the
32-bit range, the state after `i ≤ k` executions of the body has the counter
`i + 1` and the accumulator `C(n, i)`. -/
theorem binomialState_choose (n k : Nat) (hn : n < UINT_MOD) (hkn : k ≤ n)
    (hk : k + 1 < UINT_MOD) (hprod : ∀ j, j < k → Nat.choose n j * (n - j) < UINT_MOD) :
    ∀ i, i ≤ k → binomialState n k i = some (i + 1, Nat.choose n i) := by
  intro i
  induction i with
  | zero =>
    intro _
    rw [binomialState, Nat.choose_zero_right]
  | succ i ih =>
    intro hi
    have hik : i < k := hi
    rw [binomialState, ih (by omega)]
    simp only [hi, if_true, Nat.succ_ne_zero, if_false]
    rw [usub_uadd_one hn (Nat.succ_pos i) (by omega)]
    rw [show n + 1 - (i + 1) = n - i by omega]
    rw [umul_of_lt (hprod i hik), choose_step]
    rw [uadd_of_lt (show i + 1 + 1 < UINT_MOD by omega)]

/-! ## Lemmas on the arithmetic of `double` -/

theorem Dbl.signed_add_not (s : Bool) (x : Nat) : Dbl.signed s x + Dbl.signed (!s) x = 0 := by
  cases s <;> simp [Dbl.signed]

/-- The difference `a - a` is a zero for finite `a` and NaN otherwise. -/
theorem Dbl.isZero_sub_self_or_nan (a : Dbl) : Dbl.isZero (a - a) = true ∨ a - a = Dbl.nan := by
  cases a with
  | finite s m e =>
    left
    show Dbl.isZero (Dbl.add (Dbl.finite s m e) (Dbl.neg (Dbl.finite s m e))) = true
    simp only [Dbl.neg, Dbl.add, min_self, Dbl.signed_add_not, if_true, Dbl.isZero]
    decide
  | inf s =>
    right
    show Dbl.add (Dbl.inf s) (Dbl.neg (Dbl.inf s)) = Dbl.nan
    cases s <;> simp [Dbl.neg, Dbl.add]
  | nan =>
    right
    rfl

/-- Dividing any value by a zero or by NaN gives an infinity or NaN. -/
theorem Dbl.isInfOrNaN_div (x z : Dbl) (hz : Dbl.isZero z = true ∨ z = Dbl.nan) :
    Dbl.isInfOrNaN (x / z) = true := by
  show Dbl.isInfOrNaN (Dbl.div x z) = true
  rcases hz with hz | hz
  · cases z with
    | finite t n f =>
      have hn : n = 0 := by simpa [Dbl.isZero] using hz
      subst hn
      cases x with
      | finite s m e =>
        by_cases hm : m = 0 <;> simp [Dbl.div, hm, Dbl.isInfOrNaN]
      | inf s => simp [Dbl.div, Dbl.isInfOrNaN]
      | nan => simp [Dbl.div, Dbl.isInfOrNaN]
    | inf t => simp [Dbl.isZero] at hz
    | nan => simp [Dbl.isZero] at hz
  · subst hz
    cases x <;> simp [Dbl.div, Dbl.isInfOrNaN]

/-- Adding any value to an infinity or NaN gives an infinity or NaN. -/
theorem Dbl.isInfOrNaN_add (q y : Dbl) (hq : Dbl.isInfOrNaN q = true) :
    Dbl.isInfOrNaN (q + y) = true := by
  show Dbl.isInfOrNaN (Dbl.add q y) = true
  cases q with
  | finite s m e => simp [Dbl.isInfOrNaN] at hq
  | inf s =>
    cases y with
    | finite t n f => simp [Dbl.add, Dbl.isInfOrNaN]
    | inf t => by_cases h : s = t <;> simp [Dbl.add, h, Dbl.isInfOrNaN]
    | nan => simp [Dbl.add, Dbl.isInfOrNaN]
  | nan => cases y <;> simp [Dbl.add, Dbl.isInfOrNaN]

namespace Dbl

/-- Zero has no binary digits. -/
theorem bitLengthAux_zero (fuel : Nat) : bitLengthAux fuel 0 = 0 := by
  cases fuel <;> simp [bitLengthAux]

/-- With enough fuel the count of binary digits `b` of `m` satisfies
`2 ^ (b - 1) ≤ m < 2 ^ b`. -/
theorem bitLengthAux_spec : ∀ (fuel m : Nat), m ≤ fuel →
    m < 2 ^ bitLengthAux fuel m ∧ (m ≠ 0 → 2 ^ (bitLengthAux fuel m - 1) ≤ m) := by
  intro fuel
  induction fuel with
  | zero =>
    intro m hm
    have h0 : m = 0 := by omega
    subst h0
    simp [bitLengthAux]
  | succ fuel ih =>
    intro m hm
    by_cases h0 : m = 0
    · subst h0
      simp [bitLengthAux]
    · obtain ⟨hlt, hge⟩ := ih (m / 2) (by omega)
      simp only [bitLengthAux, h0, if_false, Nat.add_sub_cancel]
      constructor
      · rw [pow_succ]
        omega
      · intro _
        by_cases h2 : m / 2 = 0
        · rw [h2, bitLengthAux_zero]
          simp only [pow_zero]
          omega
        · have hge2 := hge h2
          have hpos : 1 ≤ bitLengthAux fuel (m / 2) := by
            by_contra hc
            have hz : bitLengthAux fuel (m / 2) = 0 := by omega
            rw [hz] at hlt
            simp only [pow_zero] at hlt
            omega
          have hpow : 2 ^ bitLengthAux fuel (m / 2) = 2 * 2 ^ (bitLengthAux fuel (m / 2) - 1) := by
            conv_lhs => rw [show bitLengthAux fuel (m / 2) = (bitLengthAux fuel (m / 2) - 1) + 1 by omega]
            rw [pow_succ]
            omega
          omega

/-- A number is below `2` to the power of its bit length. -/
theorem lt_two_pow_bitLength (m : Nat) : m < 2 ^ bitLength m :=
  (bitLengthAux_spec m m (le_refl m)).1

/-- A non-zero number has its top bit set. -/
theorem two_pow_le_of_ne_zero (m : Nat) (hm : m ≠ 0) : 2 ^ (bitLength m - 1) ≤ m :=
  (bitLengthAux_spec m m (le_refl m)).2 hm

/-- A number below `2 ^ k` has at most `k` bits. -/
theorem bitLength_le_of_lt (m k : Nat) (h : m < 2 ^ k) : bitLength m ≤ k := by
  by_contra hc
  have hm : m ≠ 0 := by
    intro h0
    subst h0
    simp [bitLength, bitLengthAux_zero] at hc
  have h1 := two_pow_le_of_ne_zero m hm
  have h2 : 2 ^ k ≤ 2 ^ (bitLength m - 1) := Nat.pow_le_pow_right (by decide) (by omega)
  omega

/-- Appending `d` zero bits adds at most `d` to the bit length. -/
theorem bitLength_mul_pow_le (m d : Nat) : bitLength (m * 2 ^ d) ≤ bitLength m + d := by
  apply bitLength_le_of_lt
  rw [pow_add]
  exact Nat.mul_lt_mul_of_pos_right (lt_two_pow_bitLength m) (Nat.pow_pos (by decide))

/-- Appending `d` zero bits to a non-zero number adds at least `d` to the bit length. -/
theorem bitLength_add_le_mul_pow (m d : Nat) (hm : m ≠ 0) :
    bitLength m + d ≤ bitLength (m * 2 ^ d) := by
  by_contra hc
  have h1 := two_pow_le_of_ne_zero m hm
  have h2 := lt_two_pow_bitLength (m * 2 ^ d)
  have h3 : 2 ^ bitLength (m * 2 ^ d) ≤ 2 ^ (bitLength m - 1 + d) :=
    Nat.pow_le_pow_right (by decide) (by omega)
  have h4 : 2 ^ (bitLength m - 1 + d) ≤ m * 2 ^ d := by
    rw [pow_add]
    exact Nat.mul_le_mul_right _ h1
  omega

/-- Rounding is exact on binary64 numbers: when `m * 2 ^ e` is the magnitude of a
binary64 number `m' * 2 ^ e'`, rounding returns a finite value of that magnitude. -/
theorem roundNE_exact (s : Bool) (m : Nat) (e : Int) (m' : Nat) (e' : Int) (hm : m ≠ 0)
    (hm' : m' < 2 ^ 53) (he' : EMIN ≤ e') (hov : (bitLength m' : Int) + e' ≤ EMAX)
    (h : SameMag m e m' e') :
    ∃ m2 e2, roundNE s m e = finite s m2 e2 ∧ SameMag m2 e2 m' e' := by
  have hbl' : bitLength m' ≤ 53 := bitLength_le_of_lt m' 53 hm'
  by_cases hsh : max ((bitLength m : Int) - (PREC : Int)) (EMIN - e) ≤ 0
  · refine ⟨m, e, ?_, h⟩
    have hno : ¬ ((bitLength m : Int) + e > EMAX) := by
      rcases h with ⟨d, hd, hmd⟩ | ⟨d, hd, hmd⟩
      · have := bitLength_mul_pow_le m' d
        rw [← hmd] at this
        omega
      · have := bitLength_add_le_mul_pow m d hm
        rw [← hmd] at this
        omega
    simp only [roundNE, hm, hsh, hno, if_true, if_false]
  · rcases h with ⟨d, hd, hmd⟩ | ⟨d, hd, hmd⟩
    · have hbl := bitLength_mul_pow_le m' d
      rw [← hmd] at hbl
      have hPREC : (PREC : Int) = 53 := rfl
      have hshd : max ((bitLength m : Int) - (PREC : Int)) (EMIN - e) ≤ (d : Int) := by
        apply max_le <;> omega
      obtain ⟨sN, hsN⟩ : ∃ sN : Nat, max ((bitLength m : Int) - (PREC : Int)) (EMIN - e) = (sN : Int) :=
        ⟨(max ((bitLength m : Int) - (PREC : Int)) (EMIN - e)).toNat, by
          rw [Int.toNat_of_nonneg]; omega⟩
      have hsNpos : 0 < sN := by omega
      have hsNd : sN ≤ d := by omega
      have hsplit : m = (m' * 2 ^ (d - sN)) * 2 ^ sN := by
        rw [hmd, Nat.mul_assoc, ← pow_add]
        congr 2
        omega
      have hq : m / 2 ^ sN = m' * 2 ^ (d - sN) := by
        rw [hsplit]
        exact Nat.mul_div_cancel _ (Nat.pow_pos (by decide))
      have hr : m % 2 ^ sN = 0 := by
        rw [hsplit]
        exact Nat.mul_mod_left _ _
      have hhalf : 0 < 2 ^ (sN - 1) := Nat.pow_pos (by decide)
      refine ⟨m' * 2 ^ (d - sN), e + sN, ?_, Or.inl ⟨d - sN, by omega, rfl⟩⟩
      have hblq := bitLength_mul_pow_le m' (d - sN)
      have hno : ¬ ((bitLength (m' * 2 ^ (d - sN)) : Int) + (e + (sN : Int)) > EMAX) := by
        omega
      have hnr : ¬ (0 > 2 ^ (sN - 1) ∨ (0 = 2 ^ (sN - 1) ∧ (m' * 2 ^ (d - sN)) % 2 = 1)) := by
        omega
      have hsN0 : ¬ ((sN : Int) ≤ 0) := by omega
      simp only [roundNE, hm, if_false, hsN, hsN0, Int.toNat_ofNat, hq, hr, hnr, hno]
    · exfalso
      have := bitLength_add_le_mul_pow m d hm
      rw [← hmd] at this
      have hPREC : (PREC : Int) = 53 := rfl
      apply hsh
      apply max_le <;> omega

/-- Scaling by a power of two commutes with the sign. -/
theorem signed_mul_pow (s : Bool) (m k : Nat) :
    signed s (m * 2 ^ k) = signed s m * 2 ^ k := by
  cases s <;> simp [signed]

/-- The integer that `add` and `lt` form over a common exponent `E` stands for the
same rational number. -/
theorem toRat_eq_scaled (s : Bool) (m : Nat) (e E : Int) (hE : E ≤ e) :
    ((signed s (m * 2 ^ (e - E).toNat) : Int) : ℚ) * (2 : ℚ) ^ E = toRat (finite s m e) := by
  rw [signed_mul_pow, toRat]
  push_cast
  rw [mul_assoc, ← zpow_natCast, ← zpow_add₀ (by norm_num : (2 : ℚ) ≠ 0)]
  congr 2
  rw [Int.toNat_of_nonneg (by omega)]
  omega

/-- Equal rational magnitudes are the same magnitude. -/
theorem sameMag_of_eq (M : Nat) (E : Int) (n : Nat) (f : Int)
    (h : (M : ℚ) * (2 : ℚ) ^ E = (n : ℚ) * (2 : ℚ) ^ f) : SameMag M E n f := by
  have h2 : (2 : ℚ) ≠ 0 := by norm_num
  by_cases hEf : E ≤ f
  · left
    refine ⟨(f - E).toNat, by rw [Int.toNat_of_nonneg (by omega)]; omega, ?_⟩
    have hf : f = E + ((f - E).toNat : Int) := by rw [Int.toNat_of_nonneg (by omega)]; omega
    rw [hf, zpow_add₀ h2, zpow_natCast] at h
    have h3 : (M : ℚ) = (n : ℚ) * 2 ^ (f - E).toNat := by
      have hne : (2 : ℚ) ^ E ≠ 0 := zpow_ne_zero E h2
      have h4 : (M : ℚ) * (2 : ℚ) ^ E = ((n : ℚ) * 2 ^ (f - E).toNat) * (2 : ℚ) ^ E := by
        rw [h]
        ring
      exact mul_right_cancel₀ hne h4
    exact_mod_cast h3
  · right
    refine ⟨(E - f).toNat, by rw [Int.toNat_of_nonneg (by omega)]; omega, ?_⟩
    have hf : E = f + ((E - f).toNat : Int) := by rw [Int.toNat_of_nonneg (by omega)]; omega
    rw [hf, zpow_add₀ h2, zpow_natCast] at h
    have h3 : (n : ℚ) = (M : ℚ) * 2 ^ (E - f).toNat := by
      have hne : (2 : ℚ) ^ f ≠ 0 := zpow_ne_zero f h2
      have h4 : (n : ℚ) * (2 : ℚ) ^ f = ((M : ℚ) * 2 ^ (E - f).toNat) * (2 : ℚ) ^ f := by
        rw [← h]
        ring
      exact mul_right_cancel₀ hne h4
    exact_mod_cast h3

/-- A value is not below a value of the same magnitude. -/
theorem lt_of_sameMag (m2 : Nat) (e2 : Int) (n : Nat) (f : Int) (h : SameMag m2 e2 n f) :
    lt (finite false m2 e2) (finite false n f) = false := by
  simp only [lt, signed, Bool.false_eq_true, if_false, decide_eq_false_iff_not, not_lt]
  rcases h with ⟨d, hd, hmd⟩ | ⟨d, hd, hmd⟩
  · have hmin : min e2 f = e2 := by omega
    rw [hmin, hmd, hd]
    simp
  · have hmin : min e2 f = f := by omega
    rw [hmin, hmd, hd]
    simp

end Dbl

/-- The distance to an infinity or NaN is never below a threshold. -/
theorem Dbl.lt_abs_sub_of_right (a b eps : Dbl) (hb : Dbl.isInfOrNaN b = true) :
    Dbl.lt (Dbl.abs (Dbl.sub a b)) eps = false := by
  cases b with
  | finite s m e => simp [Dbl.isInfOrNaN] at hb
  | inf t =>
    cases a with
    | finite s m e => cases eps <;> simp [Dbl.sub, Dbl.neg, Dbl.add, Dbl.abs, Dbl.lt]
    | inf s => cases s <;> cases t <;> cases eps <;> simp [Dbl.sub, Dbl.neg, Dbl.add, Dbl.abs, Dbl.lt]
    | nan => cases eps <;> simp [Dbl.sub, Dbl.neg, Dbl.add, Dbl.abs, Dbl.lt]
  | nan => cases a <;> cases eps <;> simp [Dbl.sub, Dbl.neg, Dbl.add, Dbl.abs, Dbl.lt]

/-- The distance from an infinity or NaN is never below a threshold. -/
theorem Dbl.lt_abs_sub_of_left (a b eps : Dbl) (ha : Dbl.isInfOrNaN a = true) :
    Dbl.lt (Dbl.abs (Dbl.sub a b)) eps = false := by
  cases a with
  | finite s m e => simp [Dbl.isInfOrNaN] at ha
  | inf s =>
    cases b with
    | finite t n f => cases eps <;> simp [Dbl.sub, Dbl.neg, Dbl.add, Dbl.abs, Dbl.lt]
    | inf t => cases s <;> cases t <;> cases eps <;> simp [Dbl.sub, Dbl.neg, Dbl.add, Dbl.abs, Dbl.lt]
    | nan => cases eps <;> simp [Dbl.sub, Dbl.neg, Dbl.add, Dbl.abs, Dbl.lt]
  | nan => cases b <;> cases eps <;> simp [Dbl.sub, Dbl.neg, Dbl.add, Dbl.abs, Dbl.lt]

/-- Adding an infinity gives an infinity or NaN. -/
theorem Dbl.isInfOrNaN_add_inf (a : Dbl) (t : Bool) : Dbl.isInfOrNaN (a + Dbl.inf t) = true := by
  show Dbl.isInfOrNaN (Dbl.add a (Dbl.inf t)) = true
  cases a with
  | finite s m e => simp [Dbl.add, Dbl.isInfOrNaN]
  | inf s => by_cases h : s = t <;> simp [Dbl.add, h, Dbl.isInfOrNaN]
  | nan => simp [Dbl.add, Dbl.isInfOrNaN]

/-- For finite `a` and `b` with `b = a + eps` exactly, where `eps > 0` is a binary64
number, the computed distance `|a - b|` is `eps`, hence not below `eps`. -/
theorem Dbl.lt_abs_sub_finite (sa : Bool) (ma : Nat) (ea : Int) (sb : Bool) (mb : Nat) (eb : Int)
    (n : Nat) (f : Int) (hn0 : n ≠ 0) (hn : n < 2 ^ 53) (hf : Dbl.EMIN ≤ f)
    (hov : (Dbl.bitLength n : Int) + f ≤ Dbl.EMAX)
    (h : Dbl.toRat (Dbl.finite sb mb eb)
      = Dbl.toRat (Dbl.finite sa ma ea) + Dbl.toRat (Dbl.finite false n f)) :
    Dbl.lt (Dbl.abs (Dbl.sub (Dbl.finite sa ma ea) (Dbl.finite sb mb eb))) (Dbl.finite false n f)
      = false := by
  have hA := Dbl.toRat_eq_scaled sa ma ea (min ea eb) (min_le_left _ _)
  have hB := Dbl.toRat_eq_scaled sb mb eb (min ea eb) (min_le_right _ _)
  have hneg : Dbl.signed (!sb) (mb * 2 ^ (eb - min ea eb).toNat)
      = - Dbl.signed sb (mb * 2 ^ (eb - min ea eb).toNat) := by
    cases sb <;> simp [Dbl.signed]
  have hpow : (0 : ℚ) < (2 : ℚ) ^ (min ea eb) := zpow_pos (by norm_num) _
  have hpowf : (0 : ℚ) < (2 : ℚ) ^ f := zpow_pos (by norm_num) _
  have hnpos : (0 : ℚ) < (n : ℚ) := by exact_mod_cast Nat.pos_of_ne_zero hn0
  simp only [Dbl.sub, Dbl.neg, Dbl.add]
  generalize hsum : Dbl.signed sa (ma * 2 ^ (ea - min ea eb).toNat)
      + Dbl.signed (!sb) (mb * 2 ^ (eb - min ea eb).toNat) = sum
  have hval : (sum : ℚ) * (2 : ℚ) ^ (min ea eb) = - ((n : ℚ) * (2 : ℚ) ^ f) := by
    rw [← hsum, hneg]
    push_cast
    have hE : Dbl.toRat (Dbl.finite false n f) = (n : ℚ) * (2 : ℚ) ^ f := by
      simp [Dbl.toRat, Dbl.signed]
    rw [hE] at h
    linarith [hA, hB, h]
  have hsumneg : sum < 0 := by
    by_contra hc
    have h0 : (0 : ℚ) ≤ (sum : ℚ) := by exact_mod_cast (not_lt.mp hc)
    have : (0 : ℚ) ≤ (sum : ℚ) * (2 : ℚ) ^ (min ea eb) := mul_nonneg h0 hpow.le
    have : (0 : ℚ) < (n : ℚ) * (2 : ℚ) ^ f := mul_pos hnpos hpowf
    linarith
  have hsum0 : sum ≠ 0 := by omega
  have habs : ((sum.natAbs : Nat) : ℚ) = - (sum : ℚ) := by
    have h1 : ((sum.natAbs : Nat) : Int) = - sum := by omega
    calc ((sum.natAbs : Nat) : ℚ) = (((sum.natAbs : Nat) : Int) : ℚ) := (Int.cast_natCast _).symm
      _ = ((- sum : Int) : ℚ) := by rw [h1]
      _ = - (sum : ℚ) := Int.cast_neg _
  have hmag : Dbl.SameMag sum.natAbs (min ea eb) n f := by
    apply Dbl.sameMag_of_eq
    rw [habs]
    linarith
  obtain ⟨m2, e2, hround, hsame⟩ := Dbl.roundNE_exact (decide (sum < 0)) sum.natAbs (min ea eb)
    n f (by omega) hn hf hov hmag
  rw [if_neg hsum0, hround]
  exact Dbl.lt_of_sameMag m2 e2 n f hsame

/-! ## Theorems on `binomial` -/

/-- C1: for 32-bit `n` and `k` with `k ≤ n` such that no intermediate product
overflows (`C(n, i - 1) * (n + 1 - i) < 2 ^ 32` for every `i` in `1 .. k`),
`binomial n k` returns the mathematical binomial coefficient `C(n, k)`, after
exactly `k` executions of the loop body. The case `n = 2 ^ 32 - 1`, where the
subexpression `n + 1` wraps to `0`, is included. -/
theorem binomial_eq_choose_of_no_overflow (n k : Nat) (hn : n < 2 ^ 32) (hkn : k ≤ n)
    (hprod : ∀ i, 1 ≤ i → i ≤ k → Nat.choose n (i - 1) * (n + 1 - i) < 2 ^ 32) :
    binomial n k = Outcome.ret (Nat.choose n k) k :=
  binomial_of_products_lt n k hn hkn hprod

/-- Witness of C1: `binomial(5, 2) = 10`, `binomial(10, 5) = 252`, and
`binomial(2 ^ 32 - 1, 1) = 2 ^ 32 - 1`, where `n + 1` wraps. -/
theorem binomial_eq_choose_of_no_overflow_witness :
    binomial 5 2 = Outcome.ret 10 2 ∧ binomial 10 5 = Outcome.ret 252 5
      ∧ binomial 4294967295 1 = Outcome.ret 4294967295 1 :=
  ⟨binomial_eq_choose_of_no_overflow 5 2 (by decide) (by decide)
      (by intro i h1 h2; interval_cases i <;> decide),
   binomial_eq_choose_of_no_overflow 10 5 (by decide) (by decide)
      (by intro i h1 h2; interval_cases i <;> decide),
   by
    have h := binomial_eq_choose_of_no_overflow 4294967295 1 (by decide) (by decide)
      (by intro i h1 h2; interval_cases i; simp)
    rwa [Nat.choose_one_right] at h⟩

/-- C2, counterexample: `C(65537, 2) = 2147516416` is representable in 32 bits,
but the product `65537 * 65536` of the second step is not, and
`binomial(65537, 2)` returns `32768`. -/
theorem binomial_representable_counterexample :
    (65537 : Nat) < 2 ^ 32 ∧ 2 ≤ 65537 ∧ Nat.choose 65537 2 = 2147516416
      ∧ 2147516416 < 2 ^ 32 ∧ binomial 65537 2 = Outcome.ret 32768 2 := by
  refine ⟨by decide, by decide, ?_, by decide, by decide⟩
  rw [Nat.choose_two_right]

/-- C2, amended: for 32-bit `n` and `k` with `k ≤ n` such that every
intermediate product `i * C(n, i)`, `1 ≤ i ≤ k`, is representable in 32 bits,
`binomial n k` returns exactly `C(n, k)`, which is then representable too. -/
theorem binomial_exact_of_products_representable (n k : Nat) (hn : n < 2 ^ 32) (hkn : k ≤ n)
    (hrep : ∀ i, 1 ≤ i → i ≤ k → i * Nat.choose n i < 2 ^ 32) :
    binomial n k = Outcome.ret (Nat.choose n k) k ∧ Nat.choose n k < 2 ^ 32 := by
  constructor
  · apply binomial_of_products_lt n k hn hkn
    intro i h1 h2
    rw [choose_pred_mul n i h1]
    exact hrep i h1 h2
  · rcases Nat.eq_zero_or_pos k with h0 | hpos
    · subst h0
      simp
    · exact lt_of_le_of_lt (Nat.le_mul_of_pos_left _ hpos) (hrep k hpos (le_refl k))

/-- Witness of C2, amended: `binomial(30, 15) = 155117520`. -/
theorem binomial_exact_of_products_representable_witness :
    binomial 30 15 = Outcome.ret (Nat.choose 30 15) 15 ∧ Nat.choose 30 15 < 2 ^ 32 :=
  binomial_exact_of_products_representable 30 15 (by decide) (by decide)
    (by
      intro i h1 h2
      have hmid : i * Nat.choose 30 i ≤ 15 * Nat.choose 30 15 :=
        Nat.mul_le_mul h2 (by simpa using Nat.choose_le_middle i 30)
      have hval : Nat.choose 30 15 = 155117520 := by
        rw [Nat.choose_eq_factorial_div_factorial (by decide)]
        decide
      omega)

/-- C3: for `k > n`, `binomial n k` returns `0`, and the loop body is not
executed. -/
theorem binomial_of_gt (n k : Nat) (hkn : k > n) : binomial n k = Outcome.ret 0 0 := by
  unfold binomial
  rw [if_pos hkn]

/-- Witness of C3: `binomial(3, 7) = 0` and `binomial(0, 2 ^ 32 - 1) = 0`. -/
theorem binomial_of_gt_witness :
    binomial 3 7 = Outcome.ret 0 0 ∧ binomial 0 4294967295 = Outcome.ret 0 0 :=
  ⟨binomial_of_gt 3 7 (by decide), binomial_of_gt 0 4294967295 (by decide)⟩

/-- C4: `binomial n 0` returns `1` for every `n`, in particular for `n = 0` and
`n = 2 ^ 32 - 1`: the loop body is not executed and the initial accumulator is
returned. -/
theorem binomial_zero_right (n : Nat) : binomial n 0 = Outcome.ret 1 0 := by
  unfold binomial
  rw [if_neg (Nat.not_lt_zero n)]
  exact binomialLoop_exit n 0 UINT_MOD 1 1 0 Nat.one_pos

/-- C14, at the failing input: `binomial(2 ^ 32 - 1, 2 ^ 32 - 1)` does not return.
After `2 ^ 32 - 1` executions of the loop body the counter wraps to `0`, the
condition `i <= k` still holds, and the body is entered once more, where
`result /= i` divides by zero. -/
theorem binomial_max_max_divByZero :
    binomial 4294967295 4294967295 = Outcome.divByZero 4294967296 := by
  unfold binomial
  rw [if_neg (Nat.lt_irrefl _)]
  exact binomialLoop_wraps 4294967295 (UINT_MOD - 1) binomialFuel 1 1 0
    (Or.inr ⟨by decide, by decide, by decide⟩) (by decide)

/-- C17: loop invariant of `binomial`. For `k ≤ n < 2 ^ 32` under the no-overflow
precondition and every `i` in `1 .. k`: after the `i`-th iteration the loop is
in the state with counter `i + 1` and accumulator `C(n, i)`; the run of the loop
passes through that state, and leaving the loop there (the bound being `i`)
returns that accumulator; the product `C(n, i - 1) * (n + 1 - i)` formed in
iteration `i` is divisible by `i`, so the body of iteration `i` turns the
accumulator `C(n, i - 1)` into `C(n, i)` with remainder `0`. -/
theorem binomial_loop_invariant (n k : Nat) (hn : n < 2 ^ 32) (hkn : k ≤ n)
    (hprod : ∀ i, 1 ≤ i → i ≤ k → Nat.choose n (i - 1) * (n + 1 - i) < 2 ^ 32)
    (i : Nat) (hi1 : 1 ≤ i) (hik : i ≤ k) :
    binomialState n k i = some (i + 1, Nat.choose n i)
      ∧ (∀ fuel, binomialLoop n k (fuel + i) 1 1 0
          = binomialLoop n k fuel (i + 1) (Nat.choose n i) i)
      ∧ binomial n i = Outcome.ret (Nat.choose n i) i
      ∧ i ∣ Nat.choose n (i - 1) * (n + 1 - i)
      ∧ umul (Nat.choose n (i - 1)) (usub (uadd n 1) i) / i = Nat.choose n i
      ∧ umul (Nat.choose n (i - 1)) (usub (uadd n 1) i) % i = 0 := by
  have hn2 : n < UINT_MOD := hn
  have hk := counter_bound_of_no_overflow n k hn2 hkn hprod
  have hprod2 : ∀ j, j < k → Nat.choose n j * (n - j) < UINT_MOD := by
    intro j hj
    have h := hprod (j + 1) (Nat.succ_pos j) hj
    rwa [Nat.add_sub_cancel, show n + 1 - (j + 1) = n - j by omega] at h
  have hbody : umul (Nat.choose n (i - 1)) (usub (uadd n 1) i) = i * Nat.choose n i := by
    rw [usub_uadd_one hn2 hi1 (by omega), umul_of_lt (hprod i hi1 hik), choose_pred_mul n i hi1]
  have hstate := binomialState_choose n k hn2 hkn hk hprod2 i hik
  refine ⟨hstate, binomialLoop_of_state n k i (i + 1) _ hstate, ?_, ?_, ?_, ?_⟩
  · exact binomial_of_products_lt n i hn2 (le_trans hik hkn)
      (fun j h1 h2 => hprod j h1 (le_trans h2 hik))
  · rw [choose_pred_mul n i hi1]
    exact Nat.dvd_mul_right i _
  · rw [hbody]
    exact Nat.mul_div_cancel_left _ hi1
  · rw [hbody]
    exact Nat.mul_mod_right i _

/-- Witness of C17: `n = 10`, `k = 5`, after iteration `3` the counter is `4` and
the accumulator is `C(10, 3) = 120`. -/
theorem binomial_loop_invariant_witness :
    binomialState 10 5 3 = some (4, 120)
      ∧ (∀ fuel, binomialLoop 10 5 (fuel + 3) 1 1 0 = binomialLoop 10 5 fuel 4 120 3)
      ∧ binomial 10 3 = Outcome.ret 120 3
      ∧ 3 ∣ Nat.choose 10 2 * (10 + 1 - 3)
      ∧ umul (Nat.choose 10 2) (usub (uadd 10 1) 3) / 3 = 120
      ∧ umul (Nat.choose 10 2) (usub (uadd 10 1) 3) % 3 = 0 :=
  binomial_loop_invariant 10 5 (by decide) (by decide)
    (by intro i h1 h2; interval_cases i <;> decide) 3 (by decide) (by decide)

/-! ## Theorems on the coordinate conversions -/

section ConversionTheorems

variable {T : Type} {n nd : Nat}

/-- C5: round trip. For every `n`-dimensional cartesian vector `p` and every
weight `w ≠ 0`, over a field with exact arithmetic,
`homogenousToCartesian (cartesianToHomogenous p w)` equals `p`. -/
theorem homogenousToCartesian_cartesianToHomogenous [Field T] (p : Vec n T) (w : T)
    (hw : w ≠ 0) :
    homogenousToCartesian (Nat.succ_pos n) (cartesianToHomogenous p w) = p := by
  funext i
  simp only [homogenousToCartesian, cartesianToHomogenous, Vec.truncate, Vec.divScalar,
    Vec.snoc, Vec.mulScalar, Vec.get, Vec.length]
  have hlast : ¬ (n.succ - 1 < n) := by simp
  have hi : i.val < n := i.isLt
  rw [dif_neg hlast, dif_pos hi]
  exact mul_div_cancel_right₀ (p i) hw

/-- Witness of C5: the point `(3, 5)` with weight `2` over the rationals. -/
theorem homogenousToCartesian_cartesianToHomogenous_witness :
    homogenousToCartesian (Nat.succ_pos 2)
        (cartesianToHomogenous (fun i : Fin 2 => if i.val = 0 then (3 : ℚ) else 5) 2)
      = (fun i : Fin 2 => if i.val = 0 then (3 : ℚ) else 5) :=
  homogenousToCartesian_cartesianToHomogenous _ 2 (by norm_num)

/-- C6: for every `n`-dimensional cartesian vector `p` and every weight `w`
(zero included), `truncateHomogenous (cartesianToHomogenous p w)` is the scaled
vector `p * w`: component `i` is `p i * w`. Over a field that component equals
`p i` only when `w = 1` or `p i = 0`, so the result is not `p` itself. -/
theorem truncateHomogenous_cartesianToHomogenous [Field T] (p : Vec n T) (w : T) :
    truncateHomogenous (cartesianToHomogenous p w) = Vec.mulScalar p w
      ∧ ∀ i : Fin n, (truncateHomogenous (cartesianToHomogenous p w) i = p i * w
          ∧ (truncateHomogenous (cartesianToHomogenous p w) i = p i ↔ (w = 1 ∨ p i = 0))) := by
  have hcomp : ∀ i : Fin n, truncateHomogenous (cartesianToHomogenous p w) i = p i * w := by
    intro i
    have hi : i.val < n := i.isLt
    simp only [truncateHomogenous, cartesianToHomogenous, Vec.truncate, Vec.snoc,
      Vec.mulScalar, hi, dite_true]
  refine ⟨funext hcomp, fun i => ⟨hcomp i, ?_⟩⟩
  rw [hcomp i]
  exact mul_right_eq_self₀

/-- C7: for every `nd`-dimensional vector `pt` with `nd ≥ 2`,
`homogenousToCartesian pt` is the `(nd - 1)`-dimensional vector whose component
`i` is `pt i / pt (nd - 1)` for every `i` in `0 .. nd - 2`. -/
theorem homogenousToCartesian_apply [Div T] (hnd : 2 ≤ nd) (pt : Vec nd T)
    (i : Nat) (hi : i < nd - 1) :
    homogenousToCartesian (Nat.lt_of_lt_of_le Nat.zero_lt_two hnd) pt ⟨i, hi⟩
      = pt ⟨i, Nat.lt_of_lt_of_le hi (Nat.sub_le nd 1)⟩
          / pt ⟨nd - 1, Nat.sub_lt (Nat.lt_of_lt_of_le Nat.zero_lt_two hnd) Nat.one_pos⟩ := by
  unfold homogenousToCartesian
  simp only [Vec.truncate, Vec.divScalar, Vec.get, Vec.length]

/-- Witness of C7: the homogeneous point `(6, 9, 3)` over the rationals has the
cartesian components `6 / 3` and `9 / 3`. -/
theorem homogenousToCartesian_apply_witness :
    @homogenousToCartesian ℚ 3 _ (by decide)
        (fun j : Fin 3 => if j.val = 0 then (6 : ℚ) else if j.val = 1 then 9 else 3) ⟨0, by decide⟩
      = (6 : ℚ) / 3
    ∧ @homogenousToCartesian ℚ 3 _ (by decide)
        (fun j : Fin 3 => if j.val = 0 then (6 : ℚ) else if j.val = 1 then 9 else 3) ⟨1, by decide⟩
      = (9 : ℚ) / 3 :=
  ⟨homogenousToCartesian_apply (by decide) _ 0 (by decide),
   homogenousToCartesian_apply (by decide) _ 1 (by decide)⟩

/-- C8: for every `n`-dimensional vector `pt` and every scalar `w` (zero
included), `cartesianToHomogenous pt w` is the `(n + 1)`-dimensional vector
whose component `i` is `pt i * w` for every `i` in `0 .. n - 1` and whose last
component (index `n`) is `w`. -/
theorem cartesianToHomogenous_apply [Mul T] (pt : Vec n T) (w : T) :
    (∀ i : Fin n, cartesianToHomogenous pt w (Fin.castSucc i) = pt i * w)
      ∧ cartesianToHomogenous pt w (Fin.last n) = w := by
  constructor
  · intro i
    have hi : (Fin.castSucc i).val < n := i.isLt
    simp only [cartesianToHomogenous, Vec.snoc, Vec.mulScalar, hi, dite_true]
    rfl
  · simp only [cartesianToHomogenous, Vec.snoc, Fin.val_last, Nat.lt_irrefl, dite_false]

/-- C9: for every `nd`-dimensional vector `pt` with `nd ≥ 2`,
`truncateHomogenous pt` is the `(nd - 1)`-dimensional vector whose component `i`
is `pt i` for every `i` in `0 .. nd - 2`, and a vector that differs from `pt`
only in the last component has the same truncation. -/
theorem truncateHomogenous_apply (hnd : 2 ≤ nd) (pt : Vec nd T) :
    (∀ (i : Nat) (hi : i < nd - 1),
        truncateHomogenous pt ⟨i, hi⟩ = pt ⟨i, Nat.lt_of_lt_of_le hi (Nat.sub_le nd 1)⟩)
      ∧ ∀ pt2 : Vec nd T, (∀ j : Fin nd, j.val ≠ nd - 1 → pt2 j = pt j) →
          truncateHomogenous pt2 = truncateHomogenous pt := by
  refine ⟨fun i hi => rfl, fun pt2 h => ?_⟩
  funext i
  have hi : i.val < nd - 1 := i.isLt
  exact h ⟨i.val, by omega⟩ (by simp only; omega)

/-- Witness of C9: the truncation of `(6, 9, 3)` has the components `6` and `9`. -/
theorem truncateHomogenous_apply_witness :
    @truncateHomogenous ℚ 3
        (fun j : Fin 3 => if j.val = 0 then (6 : ℚ) else if j.val = 1 then 9 else 3) ⟨0, by decide⟩
      = (fun j : Fin 3 => if j.val = 0 then (6 : ℚ) else if j.val = 1 then 9 else 3) ⟨0, by decide⟩ :=
  (truncateHomogenous_apply (by decide) _).1 0 (by decide)

/-- C18: `homogenousToCartesian` is invariant under scaling by a non-zero
factor: for `pt` with last component `≠ 0` and `s ≠ 0`, over a field,
`homogenousToCartesian (s * pt) = homogenousToCartesian pt`, and the divisor
used for `s * pt` is not `0` either. -/
theorem homogenousToCartesian_scale [Field T] (hnd : 0 < nd) (pt : Vec nd T) (s : T)
    (hlast : pt ⟨nd - 1, Nat.sub_lt hnd Nat.one_pos⟩ ≠ 0) (hs : s ≠ 0) :
    homogenousToCartesian hnd (fun i => s * pt i) = homogenousToCartesian hnd pt
      ∧ s * pt ⟨nd - 1, Nat.sub_lt hnd Nat.one_pos⟩ ≠ 0 := by
  refine ⟨?_, mul_ne_zero hs hlast⟩
  funext i
  simp only [homogenousToCartesian, Vec.truncate, Vec.divScalar, Vec.get, Vec.length]
  exact mul_div_mul_left _ _ hs

/-- Witness of C18: the point `(6, 9, 3)` scaled by `5` over the rationals. -/
theorem homogenousToCartesian_scale_witness :
    @homogenousToCartesian ℚ 3 _ (by decide)
        (fun i => 5 * (fun j : Fin 3 => if j.val = 0 then (6 : ℚ) else if j.val = 1 then 9 else 3) i)
      = @homogenousToCartesian ℚ 3 _ (by decide)
        (fun j : Fin 3 => if j.val = 0 then (6 : ℚ) else if j.val = 1 then 9 else 3) :=
  (homogenousToCartesian_scale (by decide) _ 5 (by norm_num) (by norm_num)).1

/-- C20: reverse round trip. For every `nd`-dimensional vector `q` with
`nd ≥ 2` whose last component `w` is not `0`, over a field, every component of
`cartesianToHomogenous (homogenousToCartesian q) w` equals that of `q`. -/
theorem cartesianToHomogenous_homogenousToCartesian [Field T] (hnd : 2 ≤ nd) (q : Vec nd T)
    (hw : q ⟨nd - 1, Nat.sub_lt (Nat.lt_of_lt_of_le Nat.zero_lt_two hnd) Nat.one_pos⟩ ≠ 0)
    (i : Nat) (hi : i < nd) :
    cartesianToHomogenous (homogenousToCartesian (Nat.lt_of_lt_of_le Nat.zero_lt_two hnd) q)
        (q ⟨nd - 1, Nat.sub_lt (Nat.lt_of_lt_of_le Nat.zero_lt_two hnd) Nat.one_pos⟩)
        ⟨i, by omega⟩
      = q ⟨i, hi⟩ := by
  simp only [cartesianToHomogenous, homogenousToCartesian, Vec.snoc, Vec.mulScalar,
    Vec.truncate, Vec.divScalar, Vec.get, Vec.length]
  by_cases hlt : i < nd - 1
  · rw [dif_pos hlt]
    exact div_mul_cancel₀ _ hw
  · rw [dif_neg hlt]
    congr 1
    exact Fin.ext (by simp only; omega)

/-- Witness of C20: the first component of `(6, 9, 3)` over the rationals. -/
theorem cartesianToHomogenous_homogenousToCartesian_witness :
    cartesianToHomogenous (@homogenousToCartesian ℚ 3 _ (by decide)
        (fun j : Fin 3 => if j.val = 0 then (6 : ℚ) else if j.val = 1 then 9 else 3))
        ((fun j : Fin 3 => if j.val = 0 then (6 : ℚ) else if j.val = 1 then 9 else 3)
          ⟨2, by decide⟩)
        ⟨0, by decide⟩
      = (fun j : Fin 3 => if j.val = 0 then (6 : ℚ) else if j.val = 1 then 9 else 3)
          ⟨0, by decide⟩ :=
  cartesianToHomogenous_homogenousToCartesian (by decide) _ (by norm_num) 0 (by decide)

end ConversionTheorems

/-! ## Theorems on `close` -/

/-- C10: `close a b eps` is `true` if and only if `|a - b| < eps`, with a strict
comparison: when `|a - b|` equals `eps` the result is `false`. -/
theorem close_iff {T : Type} [LinearOrderedField T] (a b eps : T) :
    (close a b eps = true ↔ |a - b| < eps) ∧ (|a - b| = eps → close a b eps = false) := by
  unfold close
  show ((if |a - b| < eps then true else false) = true ↔ |a - b| < eps)
    ∧ (|a - b| = eps → (if |a - b| < eps then true else false) = false)
  constructor
  · by_cases h : |a - b| < eps <;> simp [h]
  · intro h
    rw [if_neg (by rw [h]; exact lt_irrefl eps)]

/-- Witness of C10: `1` and `2` are exactly `1` apart and not close within `1`. -/
theorem close_iff_witness : close (1 : ℚ) 2 1 = false :=
  (close_iff (1 : ℚ) 2 1).2 (by norm_num)

/-- C11, counterexample: in binary64, for `a = 2` and the machine epsilon
`eps = 2 ^ (-52) > 0`, the sum `a + eps` lies halfway between the neighbours `2`
and `2 + 2 ^ (-51)` and rounds to `2` (here written `2 ^ 52 * 2 ^ (-51)`), so
`close a (a + eps) eps` compares the distance `0` with `eps` and is `true`. -/
theorem close_add_eps_counterexample :
    Dbl.finite false 0 0 < Dbl.finite false 1 (-52)
      ∧ Dbl.finite false 2 0 + Dbl.finite false 1 (-52)
          = Dbl.finite false 4503599627370496 (-51)
      ∧ close (Dbl.finite false 2 0) (Dbl.finite false 2 0 + Dbl.finite false 1 (-52))
          (Dbl.finite false 1 (-52)) = true := by
  decide

/-- With exact arithmetic (an ordered field, where neither `a + eps` nor `a - b`
is rounded), `close a (a + eps) eps` is `false` for every `a` and `eps > 0`. -/
theorem close_add_eps {T : Type} [LinearOrderedField T] (a eps : T) (heps : 0 < eps) :
    close a (a + eps) eps = false := by
  unfold close
  show (if |a - (a + eps)| < eps then true else false) = false
  have habs : |a - (a + eps)| = eps := by
    rw [sub_add_cancel_left, abs_neg, abs_of_pos heps]
  rw [if_neg (by rw [habs]; exact lt_irrefl eps)]

/-- Over the rationals `close 3 (3 + 1/4) (1/4)` is `false`. -/
theorem close_add_eps_witness : close (3 : ℚ) (3 + 1 / 4) (1 / 4) = false :=
  close_add_eps (3 : ℚ) (1 / 4) (by norm_num)

/-- C11, amended: in binary64, for every `a` and every threshold `eps > 0` (a
binary64 value) for which the sum `a + eps` is computed without rounding error
(when `a` and the computed sum are finite, the computed sum is the number
`a + eps`),
`close a (a + eps) eps` is `false`: a distance equal to the threshold is not
close. -/
theorem close_false_of_exact_sum (a eps : Dbl) (hrep : Dbl.isBinary64 eps = true)
    (hpos : Dbl.finite false 0 0 < eps)
    (hexact : Dbl.isInfOrNaN a = false → Dbl.isInfOrNaN (a + eps) = false →
      Dbl.toRat (a + eps) = Dbl.toRat a + Dbl.toRat eps) :
    close a (a + eps) eps = false := by
  have hgoal : Dbl.lt (Dbl.abs (Dbl.sub a (a + eps))) eps = false := by
    by_cases ha : Dbl.isInfOrNaN a = true
    · exact Dbl.lt_abs_sub_of_left a _ eps ha
    by_cases hb : Dbl.isInfOrNaN (a + eps) = true
    · exact Dbl.lt_abs_sub_of_right a _ eps hb
    have ha2 : Dbl.isInfOrNaN a = false := by simpa using ha
    have hb2 : Dbl.isInfOrNaN (a + eps) = false := by simpa using hb
    have hex := hexact ha2 hb2
    cases eps with
    | nan => exact absurd hpos (by simp [LT.lt, Dbl.lt])
    | inf t => exact absurd (Dbl.isInfOrNaN_add_inf a t) hb
    | finite t n f =>
      have hpos2 : Dbl.lt (Dbl.finite false 0 0) (Dbl.finite t n f) = true := hpos
      have ht : t = false ∧ n ≠ 0 := by
        cases t
        · refine ⟨rfl, ?_⟩
          intro h0
          subst h0
          simp [Dbl.lt, Dbl.signed] at hpos2
        · exfalso
          simp only [Dbl.lt, Dbl.signed, if_true, Bool.false_eq_true, if_false,
            decide_eq_true_eq] at hpos2
          have : (0 : Int) ≤ ((n * 2 ^ (f - min 0 f).toNat : Nat) : Int) := Int.natCast_nonneg _
          push_cast at this hpos2
          omega
      obtain ⟨ht1, hn0⟩ := ht
      subst ht1
      have hrep2 : n < 2 ^ 53 ∧ Dbl.EMIN ≤ f ∧ (Dbl.bitLength n : Int) + f ≤ Dbl.EMAX := by
        simpa [Dbl.isBinary64] using hrep
      cases a with
      | inf s => simp [Dbl.isInfOrNaN] at ha
      | nan => simp [Dbl.isInfOrNaN] at ha
      | finite sa ma ea =>
        cases hsumb : (Dbl.finite sa ma ea + Dbl.finite false n f) with
        | inf s => rw [hsumb] at hb; simp [Dbl.isInfOrNaN] at hb
        | nan => rw [hsumb] at hb; simp [Dbl.isInfOrNaN] at hb
        | finite sb mb eb =>
          rw [hsumb] at hex
          exact Dbl.lt_abs_sub_finite sa ma ea sb mb eb n f hn0 hrep2.1 hrep2.2.1 hrep2.2.2 hex
  unfold close
  show (if Dbl.lt (Dbl.abs (Dbl.sub a (a + eps))) eps = true then true else false) = false
  rw [hgoal]
  rfl

/-- Witness of C11, amended: `a = 1` and `eps = 2 ^ (-52)`, whose sum
`(2 ^ 52 + 1) * 2 ^ (-52)` is a binary64 number. -/
theorem close_false_of_exact_sum_witness :
    close (Dbl.finite false 1 0) (Dbl.finite false 1 0 + Dbl.finite false 1 (-52))
      (Dbl.finite false 1 (-52)) = false :=
  close_false_of_exact_sum (Dbl.finite false 1 0) (Dbl.finite false 1 (-52)) (by decide)
    (by decide)
    (by
      intro _ _
      have hsum : Dbl.finite false 1 0 + Dbl.finite false 1 (-52)
          = Dbl.finite false 4503599627370497 (-52) := by decide
      rw [hsum]
      simp only [Dbl.toRat, Dbl.signed, Bool.false_eq_true, if_false]
      norm_num)

/-- C12: for every `a` and every threshold `eps > 0`, `close a a eps` is `true`:
the distance `0` is strictly below any positive threshold. -/
theorem close_self {T : Type} [LinearOrderedField T] (a eps : T) (heps : 0 < eps) :
    close a a eps = true := by
  unfold close
  show (if |a - a| < eps then true else false) = true
  rw [sub_self, abs_zero, if_pos heps]

/-- Witness of C12: `close 3 3 (1/4)` is `true` over the rationals. -/
theorem close_self_witness : close (3 : ℚ) 3 (1 / 4) = true :=
  close_self (3 : ℚ) (1 / 4) (by norm_num)

/-! ## Theorems on `mapToRange` -/

/-- C13: for `old_max ≠ old_min`, `mapToRange` returns
`((val - old_min) * (new_max - new_min)) / (old_max - old_min) + new_min`, and
nothing is clamped: with both intervals increasing, a `val` above `old_max` is
sent above `new_max` and a `val` below `old_min` is sent below `new_min`. -/
theorem mapToRange_eq {T : Type} [LinearOrderedField T]
    (val old_min old_max new_min new_max : T) (hne : old_max ≠ old_min) :
    mapToRange val old_min old_max new_min new_max
        = ((val - old_min) * (new_max - new_min)) / (old_max - old_min) + new_min
      ∧ (old_min < old_max → new_min < new_max → old_max < val →
          new_max < mapToRange val old_min old_max new_min new_max)
      ∧ (old_min < old_max → new_min < new_max → val < old_min →
          mapToRange val old_min old_max new_min new_max < new_min) := by
  have hrange : old_max - old_min ≠ 0 := sub_ne_zero.mpr hne
  refine ⟨rfl, ?_, ?_⟩
  · intro hold hnew hval
    unfold mapToRange
    have hpos : 0 < old_max - old_min := sub_pos.mpr hold
    have hnpos : 0 < new_max - new_min := sub_pos.mpr hnew
    have hlt : (old_max - old_min) * (new_max - new_min)
        < (val - old_min) * (new_max - new_min) :=
      mul_lt_mul_of_pos_right (by linarith) hnpos
    have hdiv : new_max - new_min
        < (val - old_min) * (new_max - new_min) / (old_max - old_min) := by
      rw [lt_div_iff₀ hpos]
      linarith
    simp only
    linarith
  · intro hold hnew hval
    unfold mapToRange
    have hpos : 0 < old_max - old_min := sub_pos.mpr hold
    have hnpos : 0 < new_max - new_min := sub_pos.mpr hnew
    have hneg : (val - old_min) * (new_max - new_min) < 0 :=
      mul_neg_of_neg_of_pos (by linarith) hnpos
    have hdiv : (val - old_min) * (new_max - new_min) / (old_max - old_min) < 0 :=
      div_neg_of_neg_of_pos hneg hpos
    simp only
    linarith

/-- Witness of C13: `mapToRange(5, 0, 10, 0, 100) = 50` and
`mapToRange(15, 0, 10, 0, 100) = 150` over the rationals. -/
theorem mapToRange_eq_witness :
    mapToRange (5 : ℚ) 0 10 0 100 = 50 ∧ mapToRange (15 : ℚ) 0 10 0 100 = 150 :=
  ⟨by
    rw [(mapToRange_eq (5 : ℚ) 0 10 0 100 (by norm_num)).1]
    norm_num,
   by
    rw [(mapToRange_eq (15 : ℚ) 0 10 0 100 (by norm_num)).1]
    norm_num⟩

/-- C16: for `old_min ≠ old_max`, `mapToRange` sends `old_min` to `new_min` and
`old_max` to `new_max`. -/
theorem mapToRange_endpoints {T : Type} [Field T] (old_min old_max new_min new_max : T)
    (hne : old_min ≠ old_max) :
    mapToRange old_min old_min old_max new_min new_max = new_min
      ∧ mapToRange old_max old_min old_max new_min new_max = new_max := by
  have hrange : old_max - old_min ≠ 0 := sub_ne_zero.mpr (Ne.symm hne)
  unfold mapToRange
  constructor
  · simp only [sub_self, zero_mul, zero_div, zero_add]
  · simp only
    rw [mul_div_cancel_left₀ _ hrange, sub_add_cancel]

/-- Witness of C16: the interval `[2, 6]` mapped onto `[10, 30]` over the rationals. -/
theorem mapToRange_endpoints_witness :
    mapToRange (2 : ℚ) 2 6 10 30 = 10 ∧ mapToRange (6 : ℚ) 2 6 10 30 = 30 :=
  mapToRange_endpoints (2 : ℚ) 6 10 30 (by norm_num)

/-- C19: swapping the two intervals inverts `mapToRange`: for `a ≠ b` and
`c ≠ d`, `mapToRange (mapToRange v a b c d) c d a b = v`. -/
theorem mapToRange_mapToRange {T : Type} [Field T] (v a b c d : T) (hab : a ≠ b)
    (hcd : c ≠ d) :
    mapToRange (mapToRange v a b c d) c d a b = v := by
  have h1 : b - a ≠ 0 := sub_ne_zero.mpr (Ne.symm hab)
  have h2 : d - c ≠ 0 := sub_ne_zero.mpr (Ne.symm hcd)
  unfold mapToRange
  simp only
  field_simp
  ring

/-- Witness of C19: `7` mapped from `[0, 10]` to `[1, 4]` and back. -/
theorem mapToRange_mapToRange_witness :
    mapToRange (mapToRange (7 : ℚ) 0 10 1 4) 1 4 0 10 = 7 :=
  mapToRange_mapToRange (7 : ℚ) 0 10 1 4 (by norm_num) (by norm_num)

/-! ## Division by zero in `double` arithmetic -/

/-- C15: no operation rejects an invalid input. In binary64, for every `val`,
`a`, `new_min`, `new_max`, `mapToRange val a a new_min new_max` is a value, and
that value is an infinity or NaN; and for every vector `pt` whose last component
is a zero, every component of `homogenousToCartesian pt` is an infinity or
NaN. -/
theorem division_by_zero_passthrough (val a new_min new_max : Dbl) :
    Dbl.isInfOrNaN (mapToRange val a a new_min new_max) = true
      ∧ ∀ (nd : Nat) (hnd : 0 < nd) (pt : Vec nd Dbl),
          Dbl.isZero (pt ⟨nd - 1, Nat.sub_lt hnd Nat.one_pos⟩) = true →
          ∀ i : Fin (nd - 1), Dbl.isInfOrNaN (homogenousToCartesian hnd pt i) = true := by
  constructor
  · unfold mapToRange
    exact Dbl.isInfOrNaN_add _ _ (Dbl.isInfOrNaN_div _ _ (Dbl.isZero_sub_self_or_nan a))
  · intro nd hnd pt hlast i
    simp only [homogenousToCartesian, Vec.truncate, Vec.divScalar, Vec.get, Vec.length]
    exact Dbl.isInfOrNaN_div _ _ (Or.inl hlast)

/-- Witness of C15: the homogeneous point `(6, 0, 0)` has the cartesian components
`6 / 0 = +inf` and `0 / 0 = NaN`; `mapToRange(5, 3, 3, 0, 100)` is `+inf` and
`mapToRange(3, 3, 3, 0, 100)` is NaN. -/
theorem division_by_zero_passthrough_witness :
    Dbl.isInfOrNaN (@homogenousToCartesian Dbl 3 _ (by decide)
        (fun j : Fin 3 => if j.val = 0 then Dbl.finite false 6 0 else Dbl.finite false 0 0)
        ⟨0, by decide⟩) = true
      ∧ @homogenousToCartesian Dbl 3 _ (by decide)
        (fun j : Fin 3 => if j.val = 0 then Dbl.finite false 6 0 else Dbl.finite false 0 0)
        ⟨0, by decide⟩ = Dbl.inf false
      ∧ @homogenousToCartesian Dbl 3 _ (by decide)
        (fun j : Fin 3 => if j.val = 0 then Dbl.finite false 6 0 else Dbl.finite false 0 0)
        ⟨1, by decide⟩ = Dbl.nan
      ∧ mapToRange (Dbl.finite false 5 0) (Dbl.finite false 3 0) (Dbl.finite false 3 0)
          (Dbl.finite false 0 0) (Dbl.finite false 100 0) = Dbl.inf false
      ∧ mapToRange (Dbl.finite false 3 0) (Dbl.finite false 3 0) (Dbl.finite false 3 0)
          (Dbl.finite false 0 0) (Dbl.finite false 100 0) = Dbl.nan :=
  ⟨(division_by_zero_passthrough (Dbl.finite false 5 0) (Dbl.finite false 3 0)
      (Dbl.finite false 0 0) (Dbl.finite false 100 0)).2 3 (by decide) _ (by decide)
      ⟨0, by decide⟩,
   by decide, by decide, by decide, by decide⟩

end util
end tinynurbs
